import Mathlib

/-!
Shallow embedding of `telegram-media-deserialize` (src/main.rs) and proofs
about its part catalog builder, contiguity analyzer, payload reader and
stream reconstructor. A file is a `List Nat` of bytes (decoding reduces a
byte mod 256), `u32` fields stay below 2^32 because they are decoded from 4
bytes, and the `u64` cursor is a plain `Nat`: it is bounded by the file
length plus one part size at every step, so `u64` wrapping is unreachable
for any real file.
-/

namespace TMD

/-- Struct `PartInfo` of src/main.rs: `in_offset: u64`, `out_offset: u32`,
`part_size: u32`. -/
structure PartInfo where
  in_offset : Nat
  out_offset : Nat
  part_size : Nat
deriving DecidableEq, Repr

instance : Inhabited PartInfo := ⟨⟨0, 0, 0⟩⟩

/-- One insertion step of the stable sort keyed on `out_offset`: the new
element goes in front of the first entry whose key is not smaller, so it
stays behind every equal-keyed entry that was discovered before it. -/
def insert_by_key (a : PartInfo) : List PartInfo → List PartInfo
  | [] => [a]
  | b :: l => if a.out_offset ≤ b.out_offset then a :: b :: l else b :: insert_by_key a l

/-- Model of `info.sort_by_key(|pi| pi.out_offset)` in `order_and_report_info`:
Rust's slice sort is stable, and a stable sort by a fixed key is unique, so
this insertion sort computes the same list. -/
def sort_by_key : List PartInfo → List PartInfo
  | [] => []
  | a :: l => insert_by_key a (sort_by_key l)

/-- The `u32` modulus, 2^32. -/
def u32 : Nat := 4294967296

/-- The adjacency test `curr.out_offset == prev.out_offset + prev.part_size`
of `order_and_report_info` at index `i` of the sorted vector (the `+` is a
`u32` addition, hence the reduction mod 2^32). -/
def adj (l : List PartInfo) (i : Nat) : Bool :=
  (l.getD i default).out_offset ==
    ((l.getD (i - 1) default).out_offset + (l.getD (i - 1) default).part_size) % u32

/-- Variable `last_contigous_i` of `order_and_report_info`: starts at 0 and is set to
`i` at every `i` in `1..len` whose entry passes the adjacency test against
its immediate predecessor. -/
def last_contigous_i (l : List PartInfo) : Nat :=
  (List.range' 1 (l.length - 1)).foldl (fun acc i => if adj l i then i else acc) 0

/-- The diagnostic summary `order_and_report_info` computes for a sorted
vector of two or more entries. `last_contiguous_offset` is a `u32` addition
and `discontinuity_len` a `u32` subtraction; both are modelled with the
release-build wrapping semantics (a debug build instead panics when
`last_part.out_offset < last_contiguous_offset`). -/
structure ContigReport where
  first_part : PartInfo
  last_part : PartInfo
  last_contiguous : PartInfo
  last_contiguous_offset : Nat
  discontinuity_len : Nat
deriving DecidableEq, Repr

/-- The report of `order_and_report_info` on the sorted vector `l`: `none`
for zero or one entries (the `0 | 1 => ()` match arm prints nothing). -/
def contig_report (l : List PartInfo) : Option ContigReport :=
  if l.length ≤ 1 then none
  else
    let last_contiguous := l.getD (last_contigous_i l) default
    let last_part := l.getD (l.length - 1) default
    let lco := (last_contiguous.out_offset + last_contiguous.part_size) % u32
    some ⟨l.getD 0 default, last_part, last_contiguous, lco,
      (u32 + last_part.out_offset - lco) % u32⟩

/-- Function `order_and_report_info` sorts the vector and returns it
(`OrderedPartInfos`); its printed summary is `contig_report` of the result. -/
def order_and_report_info (info : List PartInfo) : List PartInfo :=
  sort_by_key info

/-- Model of `SerializedFile::_read_u32_le`: `read_exact` of 4 bytes at `pos`
(failing, as `std::io::Read::read_exact` does, when fewer than 4 bytes
remain before end of file), decoded little-endian. Each byte is reduced mod
256, so the result is below 2^32. -/
def read_u32_le (file : List Nat) (pos : Nat) : Option Nat :=
  if pos + 4 ≤ file.length then
    some (file.getD pos 0 % 256 + 256 * (file.getD (pos + 1) 0 % 256) +
      65536 * (file.getD (pos + 2) 0 % 256) + 16777216 * (file.getD (pos + 3) 0 % 256))
  else none

def MAX_PARTS_COUNT : Nat := 80

def MAX_PART_SIZE : Nat := 131072

/-- Outcome of the inner `while read_parts < parts` loop of `get_info`. -/
inductive InnerRes where
  | done (pos : Nat) (acc : List PartInfo)
  | stop (acc : List PartInfo)
  | fatal
deriving DecidableEq, Repr

/-- The inner loop of `get_info`, reading `remaining` more part headers at
`pos`: each round reads `out_offset` then `part_size` (a failed read there
is propagated with `?`, hence `.fatal`), breaks the whole scan on a zero or
oversized `part_size` (`.stop`, keeping the vector as pushed so far), and
otherwise pushes the part -- whose payload begins right after its 8 header
bytes -- and seeks the cursor `part_size` bytes forward. -/
def read_parts_loop (file : List Nat) : Nat → Nat → List PartInfo → InnerRes
  | 0, pos, acc => .done pos acc
  | r + 1, pos, acc =>
    match read_u32_le file pos with
    | none => .fatal
    | some out_offset =>
      match read_u32_le file (pos + 4) with
      | none => .fatal
      | some part_size =>
        if part_size = 0 ∨ part_size > MAX_PART_SIZE then .stop acc
        else read_parts_loop file r (pos + 8 + part_size) (acc ++ [⟨pos + 8, out_offset, part_size⟩])

/-- The `'out` loop of `get_info`, with fuel: `none` means the fuel ran out
(`get_info_raw` supplies enough for every file, see the termination
theorem), `some none` a fatal `Err` return, `some (some acc)` the `Ok`
return carrying the catalog in discovery order. Whenever the loop condition
`in_offset < self.metadata.len()` is evaluated the cursor equals
`in_offset`, so one position argument models both. -/
def get_info_loop (file : List Nat) : Nat → Nat → List PartInfo → Option (Option (List PartInfo))
  | 0, _, _ => none
  | fuel + 1, pos, acc =>
    if pos < file.length then
      match read_u32_le file pos with
      | none => some (some acc)
      | some parts =>
        if parts = 0 ∨ parts > MAX_PARTS_COUNT then some (some acc)
        else
          match read_parts_loop file parts (pos + 4) acc with
          | .fatal => some none
          | .stop acc2 => some (some acc2)
          | .done pos2 acc2 => get_info_loop file fuel pos2 acc2
    else some (some acc)

/-- The catalog of `get_info` in discovery order, before ordering. -/
def get_info_raw (file : List Nat) : Option (Option (List PartInfo)) :=
  get_info_loop file (file.length + 1) 0 []

/-- Model of `SerializedFile::get_info`: the parsed catalog, passed through
`order_and_report_info`. -/
def get_info (file : List Nat) : Option (Option (List PartInfo)) :=
  (get_info_raw file).map (Option.map order_and_report_info)

/-- One `self.file.read(&mut self.rd_buf)` outcome: `ok bytes` is `Ok(n)`
with the `n ≤ 4096` bytes read into `rd_buf` (`Ok` of the empty list at end
of file -- a `File` read past the end is not an error), `err` is an `Err`
of the underlying reader. -/
inductive ReadOutcome where
  | ok (bytes : List Nat)
  | err

/-- The `'rd` loop of `SerializedFile::read_part`, with `reads k` the
outcome of the k-th `read` call and fuel: `none` means the fuel ran out
before the loop ended, `some (.error ())` the short-read `Err` return (it
fires only when `total_read` differs from `part_size`), `some (.ok buf)`
the `Ok(part_buf)` return. Each `Ok(n)` appends `n2 = n.min(part_size -
part_buf.len())` bytes of the read. -/
def read_part_loop (reads : Nat → ReadOutcome) (part_size : Nat) :
    Nat → List Nat → Nat → Option (Except Unit (List Nat))
  | _, _, 0 => none
  | k, buf, fuel + 1 =>
    match reads k with
    | .ok bytes =>
      let buf2 := buf ++ bytes.take (min bytes.length (part_size - buf.length))
      if buf2.length = part_size then some (.ok buf2)
      else read_part_loop reads part_size (k + 1) buf2 fuel
    | .err =>
      if buf.length = part_size then some (.ok buf)
      else some (.error ())

/-- Model of `SerializedFile::read_part` (the `usize` conversion of `part_size`
always succeeds on a 64-bit target and is dropped). -/
def read_part (reads : Nat → ReadOutcome) (part_size fuel : Nat) : Option (Except Unit (List Nat)) :=
  read_part_loop reads part_size 0 [] fuel

/-- The outcomes `File::read` delivers from position `pos` of `file`: each
call returns the next at-most-4096 bytes, and `Ok(0)` (the empty list,
never an `Err`) once the file is exhausted. -/
def reads_file (file : List Nat) (pos : Nat) : Nat → ReadOutcome :=
  fun k => .ok ((file.drop (pos + 4096 * k)).take 4096)

/-- Specialization of `read_part` reading from position `pos` of the source file. -/
def read_part_file (file : List Nat) (pos part_size fuel : Nat) : Option (Except Unit (List Nat)) :=
  read_part (reads_file file pos) part_size fuel

/-- Seek-to-`off` plus `write_all bytes` on the destination file: writing
past the current length exposes zero bytes in the gap (the filesystem
guarantee for a freshly created regular file). -/
def write_at (out : List Nat) (off : Nat) (bytes : List Nat) : List Nat :=
  let padded := out ++ List.replicate (off + bytes.length - out.length) 0
  padded.take off ++ bytes ++ padded.drop (off + bytes.length)

/-- The copy loop of `write_to_deserialized_file`: for each descriptor in
order, seek the source to `in_offset`, `read_part part_size`, seek the
destination to `out_offset`, write the bytes. Fuel `part_size + 1` covers
every terminating run of `read_part`; `none` stands for a run that does not
complete normally (a fatal error, or the non-terminating truncated read). -/
def write_loop (src : List Nat) : List PartInfo → List Nat → Option (List Nat)
  | [], out => some out
  | pi :: rest, out =>
    match read_part_file src pi.in_offset pi.part_size (pi.part_size + 1) with
    | some (.ok bytes) => write_loop src rest (write_at out pi.out_offset bytes)
    | _ => none

/-- Model of `SerializedFile::write_to_deserialized_file`: parse with `get_info`,
then copy every part in `out_offset` order into the fresh, empty
destination file. -/
def write_to_deserialized_file (src : List Nat) : Option (List Nat) :=
  match get_info src with
  | some (some ordered) => write_loop src ordered []
  | _ => none

/-- Observable outcome of one `main` run. -/
structure RunOutcome where
  created_output : Bool
  output : Option (List Nat)
  parsed : Bool
  ok : Bool
deriving DecidableEq, Repr

/-- Model of `main` over an abstract filesystem, after argument handling:
`SerializedFile::from_name` fails unless the source path exists;
`DeserializedFile::from_name` fails -- before creating anything -- when the
destination path already exists; only then does
`write_to_deserialized_file` run `get_info` (parsing) and the copy. The
outcome records whether a destination file was created, its content when
the copy completed, whether parsing ran, and overall success (a failed copy
leaves a created file whose partial content the model does not track). -/
def main_model (src_exists dest_exists : Bool) (src : List Nat) : RunOutcome :=
  if src_exists = false then ⟨false, none, false, false⟩
  else if dest_exists = true then ⟨false, none, false, false⟩
  else
    match write_to_deserialized_file src with
    | some out => ⟨true, some out, true, true⟩
    | none => ⟨true, none, true, false⟩

/-- Little-endian 4-byte encoding of a value below 2^32. -/
def le32 (n : Nat) : List Nat :=
  [n % 256, n / 256 % 256, n / 65536 % 256, n / 16777216 % 256]

/-- A part as the format stores it: `dest_offset:u32 size:u32 payload`. -/
def encode_part (t : Nat × Nat × List Nat) : List Nat :=
  le32 t.1 ++ le32 t.2.1 ++ t.2.2

def encode_parts (ps : List (Nat × Nat × List Nat)) : List Nat :=
  (ps.map encode_part).flatten

/-- A serialized file holding one slice with the given
`(dest_offset, size, payload)` parts. -/
def build_file (ps : List (Nat × Nat × List Nat)) : List Nat :=
  le32 ps.length ++ encode_parts ps

/-- The catalog the scan recovers from `encode_parts ps` laid out at `pos`. -/
def part_infos_from (pos : Nat) : List (Nat × Nat × List Nat) → List PartInfo
  | [] => []
  | t :: ps => ⟨pos + 8, t.1, t.2.1⟩ :: part_infos_from (pos + 8 + t.2.1) ps

/-- The highest `out_offset + part_size` of a catalog. -/
def max_end (l : List PartInfo) : Nat :=
  l.foldr (fun pi m => max (pi.out_offset + pi.part_size) m) 0

/-- The highest `dest_offset + size` of a triple list. -/
def max_end_triples (ps : List (Nat × Nat × List Nat)) : Nat :=
  ps.foldr (fun t m => max (t.1 + t.2.1) m) 0

/-- Validity of build triples, mirroring the format limits: positive size
within `MAX_PART_SIZE`, a payload of exactly `size` bytes, and an encodable
`dest_offset`. -/
@[reducible]
def valid_triples (ps : List (Nat × Nat × List Nat)) : Prop :=
  ∀ t ∈ ps, 0 < t.2.1 ∧ t.2.1 ≤ MAX_PART_SIZE ∧ t.2.2.length = t.2.1 ∧ t.1 < u32

/-- No two triples overlap in their destination ranges
`[dest_offset, dest_offset + size)`. -/
@[reducible]
def disjoint_triples (ps : List (Nat × Nat × List Nat)) : Prop :=
  ps.Pairwise fun a b => a.1 + a.2.1 ≤ b.1 ∨ b.1 + b.2.1 ≤ a.1

/-- The sort key order of `order_and_report_info`. -/
def key_le (a b : PartInfo) : Prop := a.out_offset ≤ b.out_offset

theorem insert_by_key_perm (a : PartInfo) (l : List PartInfo) :
    List.Perm (insert_by_key a l) (a :: l) := by
  induction l with
  | nil => exact List.Perm.refl _
  | cons b l ih =>
    by_cases h : a.out_offset ≤ b.out_offset
    · simp only [insert_by_key, if_pos h]
      exact List.Perm.refl _
    · simp only [insert_by_key, if_neg h]
      exact (ih.cons b).trans (List.Perm.swap a b l)

theorem sort_by_key_perm (l : List PartInfo) : List.Perm (sort_by_key l) l := by
  induction l with
  | nil => exact List.Perm.refl _
  | cons a l ih => exact (insert_by_key_perm a _).trans (ih.cons a)

theorem insert_by_key_pairwise {a : PartInfo} {l : List PartInfo}
    (h : l.Pairwise key_le) : (insert_by_key a l).Pairwise key_le := by
  induction l with
  | nil => simp [insert_by_key]
  | cons b l ih =>
    rcases List.pairwise_cons.mp h with ⟨hb, hl⟩
    by_cases hab : a.out_offset ≤ b.out_offset
    · simp only [insert_by_key, if_pos hab]
      refine List.pairwise_cons.mpr ⟨?_, h⟩
      intro x hx
      rcases List.mem_cons.mp hx with rfl | hx
      · exact hab
      · exact le_trans hab (hb x hx)
    · simp only [insert_by_key, if_neg hab]
      refine List.pairwise_cons.mpr ⟨?_, ih hl⟩
      intro x hx
      have hx2 : x ∈ a :: l := (insert_by_key_perm a l).mem_iff.mp hx
      rcases List.mem_cons.mp hx2 with rfl | hx2
      · exact le_of_not_le hab
      · exact hb x hx2

theorem sort_by_key_pairwise (l : List PartInfo) : (sort_by_key l).Pairwise key_le := by
  induction l with
  | nil => exact List.Pairwise.nil
  | cons a l ih => exact insert_by_key_pairwise ih

theorem insert_by_key_filter (k : Nat) (a : PartInfo) (l : List PartInfo) :
    (insert_by_key a l).filter (fun pi => pi.out_offset == k) =
      ((a :: l).filter fun pi => pi.out_offset == k) := by
  induction l with
  | nil => rfl
  | cons b l ih =>
    by_cases hab : a.out_offset ≤ b.out_offset
    · simp only [insert_by_key, if_pos hab]
    · simp only [insert_by_key, if_neg hab, List.filter_cons, ih]
      by_cases hbk : b.out_offset = k
      · have hak : ¬ a.out_offset = k := by omega
        simp [hak, hbk]
      · simp [hbk]

theorem sort_by_key_filter (k : Nat) (l : List PartInfo) :
    ((sort_by_key l).filter fun pi => pi.out_offset == k) =
      (l.filter fun pi => pi.out_offset == k) := by
  induction l with
  | nil => rfl
  | cons a l ih =>
    have : sort_by_key (a :: l) = insert_by_key a (sort_by_key l) := rfl
    rw [this, insert_by_key_filter k a (sort_by_key l)]
    simp [List.filter_cons, ih]

/-- C7: sorting the catalog by `dest_offset` is total and stable: the output
of `order_and_report_info` is a permutation of its input (no descriptor lost
or duplicated), it is ordered by non-decreasing `out_offset`, and the
descriptors holding any fixed `out_offset` value keep their relative
discovery order. -/
theorem sort_is_stable_and_total (l : List PartInfo) (k : Nat) :
    List.Perm (order_and_report_info l) l ∧
      (order_and_report_info l).Pairwise (fun a b => a.out_offset ≤ b.out_offset) ∧
      ((order_and_report_info l).filter fun pi => pi.out_offset == k) =
        (l.filter fun pi => pi.out_offset == k) :=
  ⟨sort_by_key_perm l, sort_by_key_pairwise l, sort_by_key_filter k l⟩

theorem last_contigous_i_eq_fold (l : List PartInfo) :
    last_contigous_i l =
      (List.range' 1 (l.length - 1)).foldl (fun acc i => if adj l i then i else acc) 0 := rfl

theorem fold_last_sat (p : Nat → Bool) :
    ∀ n : Nat,
      ((List.range' 1 n).foldl (fun acc i => if p i then i else acc) 0 = 0 ∧
        ∀ i, 1 ≤ i → i ≤ n → p i = false) ∨
      (p ((List.range' 1 n).foldl (fun acc i => if p i then i else acc) 0) = true ∧
        1 ≤ (List.range' 1 n).foldl (fun acc i => if p i then i else acc) 0 ∧
        (List.range' 1 n).foldl (fun acc i => if p i then i else acc) 0 ≤ n ∧
        ∀ i, (List.range' 1 n).foldl (fun acc i => if p i then i else acc) 0 < i →
          i ≤ n → p i = false) := by
  intro n
  induction n with
  | zero =>
    left
    exact ⟨rfl, fun i h1 h2 => absurd (le_trans h1 h2) (by omega)⟩
  | succ n ih =>
    have hstep : (List.range' 1 (n + 1)).foldl (fun acc i => if p i then i else acc) 0 =
        if p (n + 1) then (n + 1)
        else (List.range' 1 n).foldl (fun acc i => if p i then i else acc) 0 := by
      rw [List.range'_concat, List.foldl_append]
      simp only [List.foldl_cons, List.foldl_nil, Nat.one_mul]
      rw [Nat.add_comm 1 n]
    by_cases hp : p (n + 1) = true
    · right
      rw [hstep, if_pos hp]
      exact ⟨hp, by omega, le_refl _, fun i h1 h2 => by
        have : i = n + 1 ∨ i ≤ n := by omega
        omega⟩
    · have hpf : p (n + 1) = false := by
        cases h : p (n + 1)
        · rfl
        · exact absurd h hp
      rw [hstep, if_neg hp]
      rcases ih with ⟨h0, hall⟩ | ⟨hsat, h1, h2, hgt⟩
      · left
        refine ⟨h0, fun i hi1 hi2 => ?_⟩
        rcases Nat.lt_or_ge i (n + 1) with hlt | hge
        · exact hall i hi1 (by omega)
        · have : i = n + 1 := by omega
          rw [this]; exact hpf
      · right
        refine ⟨hsat, h1, by omega, fun i hi1 hi2 => ?_⟩
        rcases Nat.lt_or_ge i (n + 1) with hlt | hge
        · exact hgt i hi1 (by omega)
        · have : i = n + 1 := by omega
          rw [this]; exact hpf

/-- C1 (amended): for a sorted catalog of two or more entries,
`last_contigous_i` is the greatest index `i` in `[1, len)` at which the
entry passes the adjacency test against its immediate predecessor -- a
local check only -- or 0 when no index passes it; a gap anywhere earlier in
the order does not disqualify a later adjacent pair. -/
theorem last_contigous_i_greatest_adj (l : List PartInfo) (h : 2 ≤ l.length) :
    (last_contigous_i (sort_by_key l) = 0 ∧
      ∀ i, 1 ≤ i → i ≤ (sort_by_key l).length - 1 → adj (sort_by_key l) i = false) ∨
    (adj (sort_by_key l) (last_contigous_i (sort_by_key l)) = true ∧
      1 ≤ last_contigous_i (sort_by_key l) ∧
      last_contigous_i (sort_by_key l) ≤ (sort_by_key l).length - 1 ∧
      ∀ i, last_contigous_i (sort_by_key l) < i → i ≤ (sort_by_key l).length - 1 →
        adj (sort_by_key l) i = false) := by
  rw [last_contigous_i_eq_fold]
  exact fold_last_sat (adj (sort_by_key l)) ((sort_by_key l).length - 1)

/-- C1 counterexample: on the (already sorted) catalog with
`(dest_offset, size)` pairs `(0,10), (20,10), (30,10)`, the analyzer picks
index 2 as `last_contigous_i` although entry 1 is not adjacent to entry 0:
the run beginning at the first entry breaks before index 2, so the claim
that an entry preceded by an earlier gap is never chosen fails. -/
theorem last_contigous_i_gap_chosen :
    sort_by_key [⟨0, 0, 10⟩, ⟨4, 20, 10⟩, ⟨8, 30, 10⟩] =
        [⟨0, 0, 10⟩, ⟨4, 20, 10⟩, ⟨8, 30, 10⟩] ∧
      last_contigous_i [⟨0, 0, 10⟩, ⟨4, 20, 10⟩, ⟨8, 30, 10⟩] = 2 ∧
      adj [⟨0, 0, 10⟩, ⟨4, 20, 10⟩, ⟨8, 30, 10⟩] 1 = false ∧
      adj [⟨0, 0, 10⟩, ⟨4, 20, 10⟩, ⟨8, 30, 10⟩] 2 = true := by
  refine ⟨rfl, rfl, rfl, rfl⟩

/-- C1 witness: the amended characterization evaluated on the same concrete
catalog: the greatest adjacent index is 2. -/
theorem last_contigous_i_greatest_adj_witness :
    2 ≤ ([⟨0, 0, 10⟩, ⟨4, 20, 10⟩, ⟨8, 30, 10⟩] : List PartInfo).length ∧
      ((last_contigous_i (sort_by_key [⟨0, 0, 10⟩, ⟨4, 20, 10⟩, ⟨8, 30, 10⟩]) = 0 ∧
        ∀ i, 1 ≤ i → i ≤ (sort_by_key [⟨0, 0, 10⟩, ⟨4, 20, 10⟩, ⟨8, 30, 10⟩]).length - 1 →
          adj (sort_by_key [⟨0, 0, 10⟩, ⟨4, 20, 10⟩, ⟨8, 30, 10⟩]) i = false) ∨
      (adj (sort_by_key [⟨0, 0, 10⟩, ⟨4, 20, 10⟩, ⟨8, 30, 10⟩])
          (last_contigous_i (sort_by_key [⟨0, 0, 10⟩, ⟨4, 20, 10⟩, ⟨8, 30, 10⟩])) = true ∧
        1 ≤ last_contigous_i (sort_by_key [⟨0, 0, 10⟩, ⟨4, 20, 10⟩, ⟨8, 30, 10⟩]) ∧
        last_contigous_i (sort_by_key [⟨0, 0, 10⟩, ⟨4, 20, 10⟩, ⟨8, 30, 10⟩]) ≤
          (sort_by_key [⟨0, 0, 10⟩, ⟨4, 20, 10⟩, ⟨8, 30, 10⟩]).length - 1 ∧
        ∀ i, last_contigous_i (sort_by_key [⟨0, 0, 10⟩, ⟨4, 20, 10⟩, ⟨8, 30, 10⟩]) < i →
          i ≤ (sort_by_key [⟨0, 0, 10⟩, ⟨4, 20, 10⟩, ⟨8, 30, 10⟩]).length - 1 →
          adj (sort_by_key [⟨0, 0, 10⟩, ⟨4, 20, 10⟩, ⟨8, 30, 10⟩]) i = false)) :=
  ⟨by decide, last_contigous_i_greatest_adj [⟨0, 0, 10⟩, ⟨4, 20, 10⟩, ⟨8, 30, 10⟩] (by decide)⟩

/-- C2: on the fully contiguous catalog with `(dest_offset, size)` pairs
`(0,10), (10,10), (20,10)` the last contiguous entry is the last entry
itself, so `discontinuity_len = last_part.out_offset -
last_contiguous_offset` subtracts 30 from 20 in `u32`: the subtraction
underflows (a debug build panics) and wraps to 2^32 - 10 in a release
build -- it does not yield 0. -/
theorem contiguous_discontinuity_underflows :
    ∃ r, contig_report (order_and_report_info [⟨0, 0, 10⟩, ⟨4, 10, 10⟩, ⟨8, 20, 10⟩]) = some r ∧
      r.last_part.out_offset < r.last_contiguous_offset ∧
      r.discontinuity_len = u32 - 10 ∧ r.discontinuity_len ≠ 0 := by
  refine ⟨⟨⟨0, 0, 10⟩, ⟨8, 20, 10⟩, ⟨8, 20, 10⟩, 30, 4294967286⟩, rfl, ?_, ?_, ?_⟩ <;> decide

theorem read_u32_le_none {file : List Nat} {pos : Nat} (h : file.length < pos + 4) :
    read_u32_le file pos = none := by
  simp only [read_u32_le, if_neg (by omega : ¬ pos + 4 ≤ file.length)]

theorem read_u32_le_some_bound {file : List Nat} {pos v : Nat}
    (h : read_u32_le file pos = some v) : pos + 4 ≤ file.length := by
  by_cases hle : pos + 4 ≤ file.length
  · exact hle
  · rw [read_u32_le, if_neg hle] at h
    exact absurd h (by simp)

/-- C4 (amended): a premature end of file is non-fatal only at the 4-byte
slice header: there the scan stops and returns the catalog read so far.
During the 8-byte part header the two `_read_u32_le` calls are propagated
with `?`, so end of file while reading either half of a part header aborts
`get_info` with a fatal error instead. -/
theorem header_eof_split (file : List Nat) (fuel pos r pos2 pos3 : Nat)
    (acc acc2 acc3 : List PartInfo) (o : Nat)
    (hfuel : 1 ≤ fuel) (hpos : pos < file.length) (heof : file.length < pos + 4)
    (heof2 : file.length < pos2 + 4)
    (ho : read_u32_le file pos3 = some o) (heof3 : file.length < pos3 + 8) :
    get_info_loop file fuel pos acc = some (some acc) ∧
      read_parts_loop file (r + 1) pos2 acc2 = InnerRes.fatal ∧
      read_parts_loop file (r + 1) pos3 acc3 = InnerRes.fatal ∧
      (∀ fuel2 pos4 acc4 parts, 1 ≤ fuel2 → pos4 < file.length →
        read_u32_le file pos4 = some parts → ¬ (parts = 0 ∨ parts > MAX_PARTS_COUNT) →
        read_parts_loop file parts (pos4 + 4) acc4 = InnerRes.fatal →
        get_info_loop file fuel2 pos4 acc4 = some none) := by
  refine ⟨?_, ?_, ?_, ?_⟩
  · obtain ⟨fuel3, rfl⟩ : ∃ f, fuel = f + 1 := ⟨fuel - 1, by omega⟩
    simp only [get_info_loop, if_pos hpos, read_u32_le_none heof]
  · simp only [read_parts_loop, read_u32_le_none heof2]
  · simp only [read_parts_loop, ho, read_u32_le_none (by omega : file.length < (pos3 + 4) + 4)]
  · intro fuel2 pos4 acc4 parts hf2 hp4 hr4 hgood hfatal
    obtain ⟨fuel3, rfl⟩ : ∃ f, fuel2 = f + 1 := ⟨fuel2 - 1, by omega⟩
    simp only [get_info_loop, if_pos hp4, hr4, if_neg hgood, hfatal]

/-- C4 counterexample: the 4-byte file `[1,0,0,0]` declares a slice of one
part and then ends; the part-header read hits end of file and `get_info`
returns a fatal error (`some none`), not a successful run with the
descriptors parsed so far. -/
theorem part_header_eof_fatal :
    get_info_raw [1, 0, 0, 0] = some none ∧ get_info [1, 0, 0, 0] = some none :=
  ⟨rfl, rfl⟩

/-- C4 witness: the amended behavior evaluated on the 5-byte file
`[1,0,0,0,9]` at cursor 2 (slice-header end of file, non-fatal) and on its
part-header reads (fatal). -/
theorem header_eof_split_witness :
    (1 ≤ 1 ∧ 2 < ([1, 0, 0, 0, 9] : List Nat).length ∧
        ([1, 0, 0, 0, 9] : List Nat).length < 2 + 4 ∧
        ([1, 0, 0, 0, 9] : List Nat).length < 2 + 4 ∧
        read_u32_le [1, 0, 0, 0, 9] 0 = some 1 ∧
        ([1, 0, 0, 0, 9] : List Nat).length < 0 + 8) ∧
      (get_info_loop [1, 0, 0, 0, 9] 1 2 [] = some (some []) ∧
        read_parts_loop [1, 0, 0, 0, 9] (0 + 1) 2 [] = InnerRes.fatal ∧
        read_parts_loop [1, 0, 0, 0, 9] (0 + 1) 0 [] = InnerRes.fatal ∧
        (∀ fuel2 pos4 acc4 parts, 1 ≤ fuel2 → pos4 < ([1, 0, 0, 0, 9] : List Nat).length →
          read_u32_le [1, 0, 0, 0, 9] pos4 = some parts →
          ¬ (parts = 0 ∨ parts > MAX_PARTS_COUNT) →
          read_parts_loop [1, 0, 0, 0, 9] parts (pos4 + 4) acc4 = InnerRes.fatal →
          get_info_loop [1, 0, 0, 0, 9] fuel2 pos4 acc4 = some none)) :=
  ⟨⟨by decide, by decide, by decide, by decide, rfl, by decide⟩,
    header_eof_split [1, 0, 0, 0, 9] 1 2 0 2 0 [] [] [] 1
      (by decide) (by decide) (by decide) (by decide) rfl (by decide)⟩

/-- C6: a decoded `part_count` of 0 or above 80 makes the scan return the
catalog accumulated so far without reading that slice's parts; a decoded
`part_size` of 0 or above 131072 makes the inner loop break out with the
catalog as pushed so far (current slice included), which the outer loop
returns as the successful result; and the ordering pass keeps every
recorded descriptor. -/
theorem limits_halt_and_keep (file : List Nat) (fuel pos r pos2 : Nat)
    (acc acc2 : List PartInfo) (parts o s : Nat)
    (hfuel : 1 ≤ fuel) (hpos : pos < file.length)
    (hread : read_u32_le file pos = some parts) (hbad : parts = 0 ∨ parts > MAX_PARTS_COUNT)
    (ho : read_u32_le file pos2 = some o) (hs : read_u32_le file (pos2 + 4) = some s)
    (hsbad : s = 0 ∨ s > MAX_PART_SIZE) :
    get_info_loop file fuel pos acc = some (some acc) ∧
      read_parts_loop file (r + 1) pos2 acc2 = InnerRes.stop acc2 ∧
      (∀ fuel2 pos3 acc3 acc4 parts2, 1 ≤ fuel2 → pos3 < file.length →
        read_u32_le file pos3 = some parts2 → ¬ (parts2 = 0 ∨ parts2 > MAX_PARTS_COUNT) →
        read_parts_loop file parts2 (pos3 + 4) acc3 = InnerRes.stop acc4 →
        get_info_loop file fuel2 pos3 acc3 = some (some acc4)) ∧
      (∀ l : List PartInfo, ∀ pi ∈ l, pi ∈ order_and_report_info l) := by
  refine ⟨?_, ?_, ?_, ?_⟩
  · obtain ⟨fuel3, rfl⟩ : ∃ f, fuel = f + 1 := ⟨fuel - 1, by omega⟩
    simp only [get_info_loop, if_pos hpos, hread, if_pos hbad]
  · simp only [read_parts_loop, ho, hs, if_pos hsbad]
  · intro fuel2 pos3 acc3 acc4 parts2 hf2 hp3 hr3 hgood hstop
    obtain ⟨fuel3, rfl⟩ : ∃ f, fuel2 = f + 1 := ⟨fuel2 - 1, by omega⟩
    simp only [get_info_loop, if_pos hp3, hr3, if_neg hgood, hstop]
  · intro l pi hpi
    exact (sort_by_key_perm l).mem_iff.mpr hpi

/-- C6 witness: the file `[0,0,0,0, 5,0,0,0, 0,0,0,0]` decodes `part_count
= 0` at cursor 0 and a valid `dest_offset` with `part_size = 0` at cursor
4; both halts preserve the accumulated catalog. -/
theorem limits_halt_and_keep_witness :
    (1 ≤ 1 ∧ 0 < ([0, 0, 0, 0, 5, 0, 0, 0, 0, 0, 0, 0] : List Nat).length ∧
        read_u32_le [0, 0, 0, 0, 5, 0, 0, 0, 0, 0, 0, 0] 0 = some 0 ∧
        (0 = 0 ∨ 0 > MAX_PARTS_COUNT) ∧
        read_u32_le [0, 0, 0, 0, 5, 0, 0, 0, 0, 0, 0, 0] 4 = some 5 ∧
        read_u32_le [0, 0, 0, 0, 5, 0, 0, 0, 0, 0, 0, 0] (4 + 4) = some 0 ∧
        (0 = 0 ∨ 0 > MAX_PART_SIZE)) ∧
      (get_info_loop [0, 0, 0, 0, 5, 0, 0, 0, 0, 0, 0, 0] 1 0 [⟨0, 1, 2⟩] =
          some (some [⟨0, 1, 2⟩]) ∧
        read_parts_loop [0, 0, 0, 0, 5, 0, 0, 0, 0, 0, 0, 0] (0 + 1) 4 [⟨0, 1, 2⟩] =
          InnerRes.stop [⟨0, 1, 2⟩] ∧
        (∀ fuel2 pos3 acc3 acc4 parts2, 1 ≤ fuel2 →
          pos3 < ([0, 0, 0, 0, 5, 0, 0, 0, 0, 0, 0, 0] : List Nat).length →
          read_u32_le [0, 0, 0, 0, 5, 0, 0, 0, 0, 0, 0, 0] pos3 = some parts2 →
          ¬ (parts2 = 0 ∨ parts2 > MAX_PARTS_COUNT) →
          read_parts_loop [0, 0, 0, 0, 5, 0, 0, 0, 0, 0, 0, 0] parts2 (pos3 + 4) acc3 =
            InnerRes.stop acc4 →
          get_info_loop [0, 0, 0, 0, 5, 0, 0, 0, 0, 0, 0, 0] fuel2 pos3 acc3 =
            some (some acc4)) ∧
        (∀ l : List PartInfo, ∀ pi ∈ l, pi ∈ order_and_report_info l)) :=
  ⟨⟨by decide, by decide, rfl, by decide, rfl, rfl, by decide⟩,
    limits_halt_and_keep [0, 0, 0, 0, 5, 0, 0, 0, 0, 0, 0, 0] 1 0 0 4 [⟨0, 1, 2⟩] [⟨0, 1, 2⟩]
      0 5 0 (by decide) (by decide) rfl (by decide) rfl rfl (by decide)⟩

theorem read_parts_loop_done_ge (file : List Nat) :
    ∀ r pos acc pos2 acc2, read_parts_loop file r pos acc = InnerRes.done pos2 acc2 →
      pos ≤ pos2 := by
  intro r
  induction r with
  | zero =>
    intro pos acc pos2 acc2 h
    simp only [read_parts_loop, InnerRes.done.injEq] at h
    omega
  | succ r ih =>
    intro pos acc pos2 acc2 h
    simp only [read_parts_loop] at h
    cases ho : read_u32_le file pos with
    | none => simp only [ho] at h; exact absurd h (by simp)
    | some o =>
      simp only [ho] at h
      cases hs : read_u32_le file (pos + 4) with
      | none => simp only [hs] at h; exact absurd h (by simp)
      | some s =>
        simp only [hs] at h
        by_cases hbad : s = 0 ∨ s > MAX_PART_SIZE
        · simp only [if_pos hbad] at h; exact absurd h (by simp)
        · simp only [if_neg hbad] at h
          have := ih _ _ _ _ h
          omega

theorem read_parts_loop_done_advance (file : List Nat) (r pos : Nat) (acc : List PartInfo)
    {pos2 : Nat} {acc2 : List PartInfo}
    (h : read_parts_loop file (r + 1) pos acc = InnerRes.done pos2 acc2) : pos + 9 ≤ pos2 := by
  simp only [read_parts_loop] at h
  cases ho : read_u32_le file pos with
  | none => simp only [ho] at h; exact absurd h (by simp)
  | some o =>
    simp only [ho] at h
    cases hs : read_u32_le file (pos + 4) with
    | none => simp only [hs] at h; exact absurd h (by simp)
    | some s =>
      simp only [hs] at h
      by_cases hbad : s = 0 ∨ s > MAX_PART_SIZE
      · simp only [if_pos hbad] at h; exact absurd h (by simp)
      · simp only [if_neg hbad] at h
        have := read_parts_loop_done_ge file r _ _ _ _ h
        omega

theorem get_info_loop_not_none (file : List Nat) :
    ∀ fuel pos acc, file.length - pos + 1 ≤ fuel →
      get_info_loop file fuel pos acc ≠ none := by
  intro fuel
  induction fuel with
  | zero => intro pos acc h; omega
  | succ fuel ih =>
    intro pos acc h
    by_cases hpos : pos < file.length
    · cases hr : read_u32_le file pos with
      | none => simp [get_info_loop, hpos, hr]
      | some parts =>
        by_cases hbad : parts = 0 ∨ parts > MAX_PARTS_COUNT
        · simp [get_info_loop, hpos, hr, hbad]
        · cases hinner : read_parts_loop file parts (pos + 4) acc with
          | fatal => simp [get_info_loop, hpos, hr, hbad, hinner]
          | stop acc2 => simp [get_info_loop, hpos, hr, hbad, hinner]
          | done pos2 acc2 =>
            have hred : get_info_loop file (fuel + 1) pos acc = get_info_loop file fuel pos2 acc2 := by
              simp [get_info_loop, hpos, hr, hbad, hinner]
            rw [hred]
            obtain ⟨r, rfl⟩ : ∃ r, parts = r + 1 := ⟨parts - 1, by omega⟩
            have hadv := read_parts_loop_done_advance file r (pos + 4) acc hinner
            have hhdr := read_u32_le_some_bound hr
            exact ih pos2 acc2 (by omega)
    · simp [get_info_loop, hpos]

theorem get_info_loop_fuel_eq (file : List Nat) :
    ∀ fuel fuel2 pos acc, file.length - pos + 1 ≤ fuel → file.length - pos + 1 ≤ fuel2 →
      get_info_loop file fuel pos acc = get_info_loop file fuel2 pos acc := by
  intro fuel
  induction fuel with
  | zero => intro fuel2 pos acc h _; omega
  | succ fuel ih =>
    intro fuel2 pos acc h h2
    obtain ⟨f2, rfl⟩ : ∃ f, fuel2 = f + 1 := ⟨fuel2 - 1, by omega⟩
    by_cases hpos : pos < file.length
    · cases hr : read_u32_le file pos with
      | none => simp [get_info_loop, hpos, hr]
      | some parts =>
        by_cases hbad : parts = 0 ∨ parts > MAX_PARTS_COUNT
        · simp [get_info_loop, hpos, hr, hbad]
        · cases hinner : read_parts_loop file parts (pos + 4) acc with
          | fatal => simp [get_info_loop, hpos, hr, hbad, hinner]
          | stop acc2 => simp [get_info_loop, hpos, hr, hbad, hinner]
          | done pos2 acc2 =>
            have hred1 : get_info_loop file (fuel + 1) pos acc =
                get_info_loop file fuel pos2 acc2 := by
              simp [get_info_loop, hpos, hr, hbad, hinner]
            have hred2 : get_info_loop file (f2 + 1) pos acc =
                get_info_loop file f2 pos2 acc2 := by
              simp [get_info_loop, hpos, hr, hbad, hinner]
            rw [hred1, hred2]
            obtain ⟨r, rfl⟩ : ∃ r, parts = r + 1 := ⟨parts - 1, by omega⟩
            have hadv := read_parts_loop_done_advance file r (pos + 4) acc hinner
            have hhdr := read_u32_le_some_bound hr
            exact ih f2 pos2 acc2 (by omega) (by omega)
    · simp [get_info_loop, hpos]

/-- C8 (amended): the slice-scanning loop of `get_info` terminates on every
finite file, and only through the function's two returns: a slice whose
header parses advances the cursor by at least 13 bytes (4 for the header,
at least 9 per part), so fuel `file.length + 1` always reaches a
fuel-independent result `some res` -- never the fuel-exhaustion marker.
The loop returns the accumulated catalog unchanged (the Done state) both
at end-of-file between slices and at the first bad `part_count`; a bad
`part_size` likewise ends in Done with the pushed descriptors (see the C6
theorem); and the one ending that is not Done is the fatal `Err` return of
a slice whose 8-byte part header hits end-of-file mid-read. -/
theorem get_info_terminates (file : List Nat) (fuel : Nat) (h : file.length + 1 ≤ fuel) :
    (get_info_loop file fuel 0 [] = get_info_raw file ∧
      ∃ res, get_info_raw file = some res) ∧
      (∀ r pos acc pos2 acc2,
        read_parts_loop file (r + 1) pos acc = InnerRes.done pos2 acc2 → pos + 9 ≤ pos2) ∧
      (∀ fuel2 pos acc, ¬ pos < file.length →
        get_info_loop file (fuel2 + 1) pos acc = some (some acc)) ∧
      (∀ fuel2 pos acc parts, pos < file.length → read_u32_le file pos = some parts →
        parts = 0 ∨ parts > MAX_PARTS_COUNT →
        get_info_loop file (fuel2 + 1) pos acc = some (some acc)) ∧
      (∀ fuel2 pos acc parts, pos < file.length → read_u32_le file pos = some parts →
        ¬ (parts = 0 ∨ parts > MAX_PARTS_COUNT) →
        read_parts_loop file parts (pos + 4) acc = InnerRes.fatal →
        get_info_loop file (fuel2 + 1) pos acc = some none) := by
  refine ⟨⟨get_info_loop_fuel_eq file fuel (file.length + 1) 0 [] (by omega) (by omega), ?_⟩,
    fun r pos acc pos2 acc2 hdone => read_parts_loop_done_advance file r pos acc hdone,
    fun fuel2 pos acc hpos => by simp [get_info_loop, hpos], ?_, ?_⟩
  · cases hres : get_info_raw file with
    | none => exact absurd hres (get_info_loop_not_none file (file.length + 1) 0 [] (by omega))
    | some res => exact ⟨res, rfl⟩
  · intro fuel2 pos acc parts hpos hr hbad
    simp [get_info_loop, hpos, hr, hbad]
  · intro fuel2 pos acc parts hpos hr hgood hfatal
    simp [get_info_loop, hpos, hr, hgood, hfatal]

/-- C8 counterexample: on the finite file `[2,0,0,0]` the scan does not
reach the Done state returning the accumulated (here empty) catalog: the
declared slice of two parts hits end-of-file inside its first 8-byte part
header, and `get_info` ends in the fatal `Err` return instead. -/
theorem scan_ends_fatal_not_done :
    get_info_raw [2, 0, 0, 0] = some none ∧
      get_info_raw [2, 0, 0, 0] ≠ some (some ([] : List PartInfo)) :=
  ⟨rfl, by decide⟩

/-- C8 witness: the amended termination statement evaluated on the smallest
file, with exactly the bound's fuel. -/
theorem get_info_terminates_witness :
    (([] : List Nat).length + 1 ≤ 1) ∧
      ((get_info_loop [] 1 0 [] = get_info_raw [] ∧ ∃ res, get_info_raw [] = some res) ∧
        (∀ r pos acc pos2 acc2,
          read_parts_loop [] (r + 1) pos acc = InnerRes.done pos2 acc2 → pos + 9 ≤ pos2) ∧
        (∀ fuel2 pos acc, ¬ pos < ([] : List Nat).length →
          get_info_loop [] (fuel2 + 1) pos acc = some (some acc)) ∧
        (∀ fuel2 pos acc parts, pos < ([] : List Nat).length →
          read_u32_le [] pos = some parts →
          parts = 0 ∨ parts > MAX_PARTS_COUNT →
          get_info_loop [] (fuel2 + 1) pos acc = some (some acc)) ∧
        (∀ fuel2 pos acc parts, pos < ([] : List Nat).length →
          read_u32_le [] pos = some parts →
          ¬ (parts = 0 ∨ parts > MAX_PARTS_COUNT) →
          read_parts_loop [] parts (pos + 4) acc = InnerRes.fatal →
          get_info_loop [] (fuel2 + 1) pos acc = some none)) :=
  ⟨by decide, get_info_terminates [] 1 (by decide)⟩

theorem read_part_loop_ok_length (reads : Nat → ReadOutcome) (part_size : Nat) :
    ∀ fuel k buf res, read_part_loop reads part_size k buf fuel = some (Except.ok res) →
      res.length = part_size := by
  intro fuel
  induction fuel with
  | zero => intro k buf res h; simp only [read_part_loop] at h; exact absurd h (by simp)
  | succ fuel ih =>
    intro k buf res h
    simp only [read_part_loop] at h
    cases hr : reads k with
    | ok bytes =>
      simp only [hr] at h
      by_cases hfull :
          (buf ++ bytes.take (min bytes.length (part_size - buf.length))).length = part_size
      · rw [if_pos hfull] at h
        simp only [Option.some.injEq, Except.ok.injEq] at h
        rw [← h]
        exact hfull
      · rw [if_neg hfull] at h
        exact ih _ _ _ h
    | err =>
      simp only [hr] at h
      by_cases hfull : buf.length = part_size
      · rw [if_pos hfull] at h
        simp only [Option.some.injEq, Except.ok.injEq] at h
        rw [← h]
        exact hfull
      · rw [if_neg hfull] at h
        simp only [Option.some.injEq] at h
        exact absurd h (by simp)

/-- C10: whenever `read_part` returns `Ok`, under any sequence of read
outcomes (including `Err` outcomes taking the short-read error path, which
only falls through to the final assertion when the accumulated bytes
already equal `part_size`), the returned buffer holds exactly `part_size`
bytes, so the `assert_eq!(part_buf.len(), part_size)` at the end never
fails. -/
theorem read_part_ok_length (reads : Nat → ReadOutcome) (part_size fuel : Nat)
    (res : List Nat) (h : read_part reads part_size fuel = some (Except.ok res)) :
    res.length = part_size :=
  read_part_loop_ok_length reads part_size fuel 0 [] res h

/-- C10 witness: a 3-byte part read out of a 5-byte file returns exactly 3
bytes. -/
theorem read_part_ok_length_witness :
    read_part (reads_file [1, 2, 3, 4, 5] 0) 3 5 = some (Except.ok [1, 2, 3]) ∧
      ([1, 2, 3] : List Nat).length = 3 :=
  ⟨rfl, read_part_ok_length (reads_file [1, 2, 3, 4, 5] 0) 3 5 [1, 2, 3] rfl⟩

theorem read_part_file_diverges_aux (file : List Nat) (pos part_size : Nat) :
    ∀ fuel k buf, buf.length + (file.length - (pos + 4096 * k)) < part_size →
      read_part_loop (reads_file file pos) part_size k buf fuel = none := by
  intro fuel
  induction fuel with
  | zero => intro k buf hinv; rfl
  | succ fuel ih =>
    intro k buf hinv
    have hblen : ((file.drop (pos + 4096 * k)).take 4096).length =
        min 4096 (file.length - (pos + 4096 * k)) := by
      simp [List.length_take, List.length_drop]
    have hred : read_part_loop (reads_file file pos) part_size k buf (fuel + 1) =
        if (buf ++ ((file.drop (pos + 4096 * k)).take 4096).take
              (min ((file.drop (pos + 4096 * k)).take 4096).length
                (part_size - buf.length))).length = part_size
        then some (Except.ok (buf ++ ((file.drop (pos + 4096 * k)).take 4096).take
              (min ((file.drop (pos + 4096 * k)).take 4096).length
                (part_size - buf.length))))
        else read_part_loop (reads_file file pos) part_size (k + 1)
          (buf ++ ((file.drop (pos + 4096 * k)).take 4096).take
            (min ((file.drop (pos + 4096 * k)).take 4096).length
              (part_size - buf.length))) fuel := rfl
    rw [hred]
    have hlen2 : (buf ++ ((file.drop (pos + 4096 * k)).take 4096).take
          (min ((file.drop (pos + 4096 * k)).take 4096).length
            (part_size - buf.length))).length =
        buf.length + min ((file.drop (pos + 4096 * k)).take 4096).length
          (part_size - buf.length) := by
      simp [List.length_take]
    rw [if_neg (by rw [hlen2, hblen]; omega)]
    apply ih
    rw [hlen2, hblen]
    have : 4096 * (k + 1) = 4096 * k + 4096 := by ring
    omega

/-- C3: a descriptor whose declared `part_size` exceeds the bytes remaining
in the source never completes `read_part`: once the file is exhausted every
`read` returns `Ok(0)`, which keeps the `'rd` loop spinning (the `Err`
branch that would produce the short-read error is never taken), so no
amount of fuel yields a result -- the code loops forever instead of
failing with the ShortPayloadRead error. -/
theorem read_part_truncated_never_returns (file : List Nat) (pos part_size : Nat)
    (h : file.length - pos < part_size) :
    ∀ fuel, read_part_file file pos part_size fuel = none := by
  intro fuel
  have h0 : ([] : List Nat).length + (file.length - (pos + 4096 * 0)) < part_size := by
    simp only [List.length_nil, Nat.mul_zero, Nat.add_zero, Nat.zero_add]
    exact h
  exact read_part_file_diverges_aux file pos part_size fuel 0 [] h0

/-- C3 witness: reading a part of declared size 1000 out of a 10-byte file
makes no progress at any fuel (shown here at fuel 5). -/
theorem read_part_truncated_never_returns_witness :
    ((List.replicate 10 7).length - 0 < 1000) ∧
      read_part_file (List.replicate 10 7) 0 1000 5 = none :=
  ⟨by decide, read_part_truncated_never_returns (List.replicate 10 7) 0 1000 (by decide) 5⟩

/-- C9: when the destination path already exists, the run fails in
`DeserializedFile::from_name` before `get_info` (parsing) or any copying
runs: no destination file is created and no bytes are written, whatever the
source file holds (a missing source likewise stops the run first, also with
nothing created). -/
theorem existing_dest_no_writes (src_exists : Bool) (src : List Nat) :
    main_model src_exists true src =
      ⟨false, none, false, false⟩ := by
  cases src_exists <;> rfl

theorem getD_append_offset (pre l : List Nat) (i : Nat) :
    (pre ++ l).getD (pre.length + i) 0 = l.getD i 0 := by
  rw [List.getD_append_right pre l 0 (pre.length + i) (by omega)]
  congr 1
  omega

theorem le32_length (n : Nat) : (le32 n).length = 4 := rfl

theorem read_u32_le_le32 (file pre t : List Nat) (n pos : Nat) (hn : n < u32)
    (hf : file = pre ++ (le32 n ++ t)) (hp : pos = pre.length) :
    read_u32_le file pos = some n := by
  subst hf hp
  have hlen : (pre ++ (le32 n ++ t)).length = pre.length + (4 + t.length) := by
    simp [le32]
    try omega
  rw [read_u32_le, if_pos (by omega)]
  have g0 := getD_append_offset pre (le32 n ++ t) 0
  have g1 := getD_append_offset pre (le32 n ++ t) 1
  have g2 := getD_append_offset pre (le32 n ++ t) 2
  have g3 := getD_append_offset pre (le32 n ++ t) 3
  rw [Nat.add_zero] at g0
  rw [g0, g1, g2, g3]
  have e0 : (le32 n ++ t).getD 0 0 = n % 256 := rfl
  have e1 : (le32 n ++ t).getD 1 0 = n / 256 % 256 := rfl
  have e2 : (le32 n ++ t).getD 2 0 = n / 65536 % 256 := rfl
  have e3 : (le32 n ++ t).getD 3 0 = n / 16777216 % 256 := rfl
  rw [e0, e1, e2, e3]
  congr 1
  have hu : u32 = 4294967296 := rfl
  omega

theorem encode_parts_cons (t : Nat × Nat × List Nat) (ps : List (Nat × Nat × List Nat)) :
    encode_parts (t :: ps) = (le32 t.1 ++ le32 t.2.1 ++ t.2.2) ++ encode_parts ps := by
  simp [encode_parts, encode_part]

theorem read_parts_loop_encode (file : List Nat) :
    ∀ (ps : List (Nat × Nat × List Nat)) (pre t : List Nat) (acc : List PartInfo),
      valid_triples ps → file = pre ++ (encode_parts ps ++ t) →
      read_parts_loop file ps.length pre.length acc =
        InnerRes.done (pre.length + (encode_parts ps).length)
          (acc ++ part_infos_from pre.length ps) := by
  intro ps
  induction ps with
  | nil =>
    intro pre t acc hv hf
    simp [read_parts_loop, encode_parts, part_infos_from]
  | cons hd ps ih =>
    intro pre t acc hv hf
    obtain ⟨d, s, p⟩ := hd
    obtain ⟨hs0, hsmax, hplen, hdu⟩ := hv (d, s, p) (by simp)
    dsimp only at hs0 hsmax hplen hdu
    have hu : u32 = 4294967296 := rfl
    have hm : MAX_PART_SIZE = 131072 := rfl
    have hvtail : valid_triples ps := fun x hx => hv x (by simp [hx])
    have hf2 : file = pre ++ (le32 d ++ (le32 s ++ (p ++ (encode_parts ps ++ t)))) := by
      rw [hf, encode_parts_cons]
      simp [List.append_assoc]
    have h1 : read_u32_le file pre.length = some d :=
      read_u32_le_le32 file pre _ d pre.length hdu hf2 rfl
    have h2 : read_u32_le file (pre.length + 4) = some s := by
      refine read_u32_le_le32 file (pre ++ le32 d) (p ++ (encode_parts ps ++ t)) s _
        (by omega : s < u32) ?_ (by simp [le32])
      rw [hf2]
      simp [List.append_assoc]
    have hsz : ¬ (s = 0 ∨ s > MAX_PART_SIZE) := by
      omega
    have hstep : read_parts_loop file (ps.length + 1) pre.length acc =
        read_parts_loop file ps.length (pre.length + 8 + s)
          (acc ++ [⟨pre.length + 8, d, s⟩]) := by
      simp only [read_parts_loop, h1, h2, if_neg hsz]
    have hpre2 : file = (pre ++ le32 d ++ le32 s ++ p) ++ (encode_parts ps ++ t) := by
      rw [hf2]
      simp [List.append_assoc]
    have hpre2len : (pre ++ le32 d ++ le32 s ++ p).length = pre.length + 8 + s := by
      simp [le32]
      try omega
    have htail := ih (pre ++ le32 d ++ le32 s ++ p) t (acc ++ [⟨pre.length + 8, d, s⟩])
      hvtail hpre2
    rw [hpre2len] at htail
    have hgoal_len : pre.length + (encode_parts ((d, s, p) :: ps)).length =
        pre.length + 8 + s + (encode_parts ps).length := by
      rw [encode_parts_cons]
      simp [le32]
      try omega
    have hgoal_acc : acc ++ part_infos_from pre.length ((d, s, p) :: ps) =
        (acc ++ [⟨pre.length + 8, d, s⟩]) ++ part_infos_from (pre.length + 8 + s) ps := by
      simp [part_infos_from]
    rw [List.length_cons, hstep, htail, hgoal_len, hgoal_acc]

theorem build_file_length (ps : List (Nat × Nat × List Nat)) :
    (build_file ps).length = 4 + (encode_parts ps).length := by
  simp [build_file, le32]
  omega

theorem get_info_loop_step_done (file : List Nat) (fuel pos : Nat) (acc : List PartInfo)
    (parts pos2 : Nat) (acc2 : List PartInfo)
    (hpos : pos < file.length) (hr : read_u32_le file pos = some parts)
    (hgood : ¬ (parts = 0 ∨ parts > MAX_PARTS_COUNT))
    (hinner : read_parts_loop file parts (pos + 4) acc = InnerRes.done pos2 acc2) :
    get_info_loop file (fuel + 1) pos acc = get_info_loop file fuel pos2 acc2 := by
  simp [get_info_loop, hpos, hr, hgood, hinner]

theorem get_info_loop_exit (file : List Nat) (fuel pos : Nat) (acc : List PartInfo)
    (hpos : ¬ pos < file.length) :
    get_info_loop file (fuel + 1) pos acc = some (some acc) := by
  simp [get_info_loop, hpos]

theorem get_info_raw_build (ps : List (Nat × Nat × List Nat))
    (hv : valid_triples ps) (hne : ps ≠ []) (hcount : ps.length ≤ MAX_PARTS_COUNT) :
    get_info_raw (build_file ps) = some (some (part_infos_from 4 ps)) := by
  have hcu : ps.length < u32 := by
    have : MAX_PARTS_COUNT = 80 := rfl
    have hu : u32 = 4294967296 := rfl
    omega
  have h1 : read_u32_le (build_file ps) 0 = some ps.length := by
    refine read_u32_le_le32 (build_file ps) [] (encode_parts ps) ps.length 0 hcu ?_ rfl
    simp [build_file]
  have hne2 : 0 < ps.length := List.length_pos.mpr hne
  have hbad : ¬ (ps.length = 0 ∨ ps.length > MAX_PARTS_COUNT) := by
    have : MAX_PARTS_COUNT = 80 := rfl
    omega
  have h2 : read_parts_loop (build_file ps) ps.length 4 [] =
      InnerRes.done (4 + (encode_parts ps).length) (part_infos_from 4 ps) := by
    have h := read_parts_loop_encode (build_file ps) ps (le32 ps.length) [] [] hv
      (by simp [build_file])
    simpa [le32] using h
  have hlen4 := build_file_length ps
  have henc : 9 ≤ (encode_parts ps).length := by
    obtain ⟨t, rest, rfl⟩ : ∃ t rest, ps = t :: rest := by
      cases ps with
      | nil => exact absurd rfl hne
      | cons t rest => exact ⟨t, rest, rfl⟩
    obtain ⟨hs0, _, hplen, _⟩ := hv t (by simp)
    rw [encode_parts_cons]
    simp [le32]
    try omega
  have h0lt : 0 < (build_file ps).length := by omega
  rw [get_info_raw]
  rw [show (build_file ps).length + 1 = ((build_file ps).length - 1) + 1 + 1 by omega]
  rw [get_info_loop_step_done (build_file ps) ((build_file ps).length - 1 + 1) 0 []
    ps.length (4 + (encode_parts ps).length) (part_infos_from 4 ps) h0lt h1 hbad
    (by simpa using h2)]
  exact get_info_loop_exit (build_file ps) ((build_file ps).length - 1)
    (4 + (encode_parts ps).length) (part_infos_from 4 ps)
    (by omega)

theorem mem_part_infos_from (pi : PartInfo) :
    ∀ (ps : List (Nat × Nat × List Nat)) (pos : Nat), valid_triples ps →
      pi ∈ part_infos_from pos ps →
      ∃ t ∈ ps, pi.out_offset = t.1 ∧ pi.part_size = t.2.1 ∧ pos + 8 ≤ pi.in_offset ∧
        pi.in_offset + t.2.1 ≤ pos + (encode_parts ps).length := by
  intro ps
  induction ps with
  | nil => intro pos hv h; simp [part_infos_from] at h
  | cons hd ps ih =>
    intro pos hv h
    obtain ⟨d, s, p⟩ := hd
    obtain ⟨hs0, hsmax, hplen, hdu⟩ := hv (d, s, p) (by simp)
    dsimp only at hs0 hsmax hplen hdu
    have henclen : (encode_parts ((d, s, p) :: ps)).length =
        8 + s + (encode_parts ps).length := by
      rw [encode_parts_cons]
      simp [le32]
      try omega
    rw [part_infos_from] at h
    rcases List.mem_cons.mp h with rfl | h
    · refine ⟨(d, s, p), by simp, rfl, rfl, le_refl _, ?_⟩
      dsimp only
      omega
    · obtain ⟨t, ht, h1, h2, h3, h4⟩ := ih (pos + 8 + s) (fun x hx => hv x (by simp [hx])) h
      exact ⟨t, by simp [ht], h1, h2, by omega, by omega⟩

theorem part_infos_payload (file : List Nat) :
    ∀ (ps : List (Nat × Nat × List Nat)) (pre t : List Nat), valid_triples ps →
      file = pre ++ (encode_parts ps ++ t) →
      ∀ tr ∈ ps, ∃ pi ∈ part_infos_from pre.length ps,
        pi.out_offset = tr.1 ∧ pi.part_size = tr.2.1 ∧
        ∀ k, k < tr.2.1 → file.getD (pi.in_offset + k) 0 = tr.2.2.getD k 0 := by
  intro ps
  induction ps with
  | nil => intro pre t hv hf tr htr; simp at htr
  | cons hd ps ih =>
    intro pre t hv hf tr htr
    obtain ⟨d, s, p⟩ := hd
    obtain ⟨hs0, hsmax, hplen, hdu⟩ := hv (d, s, p) (by simp)
    dsimp only at hs0 hsmax hplen hdu
    rcases List.mem_cons.mp htr with rfl | htr
    · refine ⟨⟨pre.length + 8, d, s⟩, by rw [part_infos_from]; exact List.mem_cons_self _ _,
        rfl, rfl, ?_⟩
      intro k hk
      dsimp only at hk ⊢
      have hsplit : file = (pre ++ le32 d ++ le32 s) ++ (p ++ (encode_parts ps ++ t)) := by
        rw [hf, encode_parts_cons]
        simp [List.append_assoc]
      have hprelen : (pre ++ le32 d ++ le32 s).length = pre.length + 8 := by
        simp [le32]
        try omega
      have hoff := getD_append_offset (pre ++ le32 d ++ le32 s) (p ++ (encode_parts ps ++ t)) k
      rw [hprelen] at hoff
      rw [hsplit, hoff, List.getD_append p (encode_parts ps ++ t) 0 k (by omega)]
    · have hpre2 : file = (pre ++ le32 d ++ le32 s ++ p) ++ (encode_parts ps ++ t) := by
        rw [hf, encode_parts_cons]
        simp [List.append_assoc]
      have hpre2len : (pre ++ le32 d ++ le32 s ++ p).length = pre.length + 8 + s := by
        simp [le32]
        try omega
      obtain ⟨pi, hpi, h1, h2, h3⟩ := ih (pre ++ le32 d ++ le32 s ++ p) t
        (fun x hx => hv x (by simp [hx])) hpre2 tr htr
      rw [hpre2len] at hpi
      refine ⟨pi, ?_, h1, h2, h3⟩
      rw [part_infos_from]
      exact List.mem_cons_of_mem _ hpi

theorem part_infos_from_pairwise :
    ∀ (ps : List (Nat × Nat × List Nat)) (pos : Nat), valid_triples ps →
      disjoint_triples ps →
      (part_infos_from pos ps).Pairwise
        (fun a b => a.out_offset + a.part_size ≤ b.out_offset ∨
          b.out_offset + b.part_size ≤ a.out_offset) := by
  intro ps
  induction ps with
  | nil => intro pos hv hd; simp [part_infos_from]
  | cons hd ps ih =>
    intro pos hv hdisj
    obtain ⟨d, s, p⟩ := hd
    rcases List.pairwise_cons.mp hdisj with ⟨hhead, htail⟩
    rw [part_infos_from]
    refine List.pairwise_cons.mpr ⟨?_, ih (pos + 8 + s) (fun x hx => hv x (by simp [hx])) htail⟩
    intro pi hpi
    obtain ⟨t, ht, h1, h2, _, _⟩ :=
      mem_part_infos_from pi ps (pos + 8 + s) (fun x hx => hv x (by simp [hx])) hpi
    have := hhead t ht
    dsimp only at this ⊢
    rw [h1, h2]
    omega

theorem max_end_perm {l1 l2 : List PartInfo} (h : List.Perm l1 l2) :
    max_end l1 = max_end l2 := by
  induction h with
  | nil => rfl
  | cons x _ ih =>
    simp only [max_end, List.foldr_cons] at ih ⊢
    rw [ih]
  | swap x y l =>
    simp only [max_end, List.foldr_cons]
    omega
  | trans _ _ ih1 ih2 => rw [ih1, ih2]

theorem max_end_part_infos_from :
    ∀ (ps : List (Nat × Nat × List Nat)) (pos : Nat),
      max_end (part_infos_from pos ps) = max_end_triples ps := by
  intro ps
  induction ps with
  | nil => intro pos; rfl
  | cons hd ps ih =>
    intro pos
    simp only [part_infos_from, max_end, max_end_triples, List.foldr_cons]
    have := ih (pos + 8 + hd.2.1)
    simp only [max_end, max_end_triples] at this
    rw [this]

theorem read_part_loop_file_ok (file : List Nat) (pos psize : Nat)
    (hps : pos + psize ≤ file.length) :
    ∀ fuel j buf, buf = (file.drop pos).take (4096 * j) → 4096 * j < psize →
      psize ≤ 4096 * j + 4096 * fuel →
      read_part_loop (reads_file file pos) psize j buf fuel =
        some (Except.ok ((file.drop pos).take psize)) := by
  intro fuel
  induction fuel with
  | zero => intro j buf h1 h2 h3; omega
  | succ fuel ih =>
    intro j buf hbuf hlt hle
    have hblen : ((file.drop (pos + 4096 * j)).take 4096).length =
        min 4096 (file.length - (pos + 4096 * j)) := by
      simp [List.length_take, List.length_drop]
    have hbuflen : buf.length = 4096 * j := by
      rw [hbuf]
      simp [List.length_take, List.length_drop]
      omega
    have hred : read_part_loop (reads_file file pos) psize j buf (fuel + 1) =
        if (buf ++ ((file.drop (pos + 4096 * j)).take 4096).take
              (min ((file.drop (pos + 4096 * j)).take 4096).length
                (psize - buf.length))).length = psize
        then some (Except.ok (buf ++ ((file.drop (pos + 4096 * j)).take 4096).take
              (min ((file.drop (pos + 4096 * j)).take 4096).length
                (psize - buf.length))))
        else read_part_loop (reads_file file pos) psize (j + 1)
          (buf ++ ((file.drop (pos + 4096 * j)).take 4096).take
            (min ((file.drop (pos + 4096 * j)).take 4096).length
              (psize - buf.length))) fuel := rfl
    have hn2 : min ((file.drop (pos + 4096 * j)).take 4096).length (psize - buf.length) =
        min 4096 (psize - 4096 * j) := by
      rw [hblen, hbuflen]
      omega
    have htake : ((file.drop (pos + 4096 * j)).take 4096).take
          (min ((file.drop (pos + 4096 * j)).take 4096).length (psize - buf.length)) =
        ((file.drop pos).drop (4096 * j)).take (min 4096 (psize - 4096 * j)) := by
      rw [hn2, List.drop_drop, List.take_take]
      congr 1
      omega
    have hjoin : buf ++ ((file.drop pos).drop (4096 * j)).take (min 4096 (psize - 4096 * j)) =
        (file.drop pos).take (4096 * j + min 4096 (psize - 4096 * j)) := by
      rw [hbuf, List.take_add]
    have hbuf2len : (buf ++ ((file.drop (pos + 4096 * j)).take 4096).take
          (min ((file.drop (pos + 4096 * j)).take 4096).length (psize - buf.length))).length =
        min (4096 * j + min 4096 (psize - 4096 * j)) (file.length - pos) := by
      rw [htake, hjoin]
      simp [List.length_take, List.length_drop]
    by_cases hdone : psize ≤ 4096 * (j + 1)
    · have hfull : 4096 * j + min 4096 (psize - 4096 * j) = psize := by omega
      rw [hred, if_pos (by rw [hbuf2len, hfull]; omega)]
      rw [htake, hjoin, hfull]
    · have hstep : 4096 * j + min 4096 (psize - 4096 * j) = 4096 * (j + 1) := by
        have : 4096 * (j + 1) = 4096 * j + 4096 := by ring
        omega
      rw [hred, if_neg (by rw [hbuf2len, hstep]; omega)]
      rw [htake, hjoin, hstep]
      exact ih (j + 1) _ rfl (by omega)
        (by have : 4096 * (j + 1) = 4096 * j + 4096 := by ring
            omega)

theorem read_part_file_ok (file : List Nat) (pos psize : Nat)
    (h : pos + psize ≤ file.length) :
    read_part_file file pos psize (psize + 1) =
      some (Except.ok ((file.drop pos).take psize)) := by
  by_cases h0 : psize = 0
  · subst h0
    simp [read_part_file, read_part, read_part_loop, reads_file]
  · exact read_part_loop_file_ok file pos psize h (psize + 1) 0 []
      (by simp) (by omega) (by omega)

theorem write_at_length (out : List Nat) (off : Nat) (bytes : List Nat) :
    (write_at out off bytes).length = max out.length (off + bytes.length) := by
  simp [write_at, List.length_take, List.length_drop, List.length_replicate]
  omega

theorem write_at_getD_lt (out : List Nat) (off : Nat) (bytes : List Nat) (j : Nat)
    (hj : j < off) : (write_at out off bytes).getD j 0 = out.getD j 0 := by
  have hplen : (out ++ List.replicate (off + bytes.length - out.length) 0).length =
      max out.length (off + bytes.length) := by
    simp [List.length_replicate]
    omega
  have htlen : ((out ++ List.replicate (off + bytes.length - out.length) 0).take off).length
      = off := by
    simp [List.length_take, hplen]
  rw [write_at]
  rw [List.getD_eq_getElem?_getD, List.getD_eq_getElem?_getD]
  rw [List.getElem?_append, if_pos (by rw [List.length_append, htlen]; omega)]
  rw [List.getElem?_append, if_pos (by rw [htlen]; omega)]
  rw [List.getElem?_take, if_pos hj]
  rw [List.getElem?_append]
  by_cases hout : j < out.length
  · rw [if_pos hout]
  · rw [if_neg hout, List.getElem?_replicate]
    rw [List.getElem?_eq_none (by omega)]
    by_cases hz : j - out.length < off + bytes.length - out.length
    · rw [if_pos hz]
      rfl
    · rw [if_neg hz]

theorem write_at_getD_at (out : List Nat) (off : Nat) (bytes : List Nat) (k : Nat)
    (hk : k < bytes.length) :
    (write_at out off bytes).getD (off + k) 0 = bytes.getD k 0 := by
  have hplen : (out ++ List.replicate (off + bytes.length - out.length) 0).length =
      max out.length (off + bytes.length) := by
    simp [List.length_replicate]
    omega
  have htlen : ((out ++ List.replicate (off + bytes.length - out.length) 0).take off).length
      = off := by
    simp [List.length_take, hplen]
  rw [write_at]
  rw [List.getD_eq_getElem?_getD, List.getD_eq_getElem?_getD]
  rw [List.getElem?_append, if_pos (by rw [List.length_append, htlen]; omega)]
  rw [List.getElem?_append, if_neg (by rw [htlen]; omega)]
  rw [htlen]
  rw [show off + k - off = k by omega]

theorem getD_take_drop (src : List Nat) (pos size k : Nat) (hk : k < size) :
    ((src.drop pos).take size).getD k 0 = src.getD (pos + k) 0 := by
  rw [List.getD_eq_getElem?_getD, List.getD_eq_getElem?_getD]
  rw [List.getElem?_take, if_pos hk, List.getElem?_drop]

theorem write_loop_spec (src : List Nat) :
    ∀ (infos : List PartInfo) (out : List Nat),
      (∀ pi ∈ infos, pi.in_offset + pi.part_size ≤ src.length) →
      infos.Pairwise (fun a b => a.out_offset + a.part_size ≤ b.out_offset) →
      ∃ final, write_loop src infos out = some final ∧
        final.length = max out.length (max_end infos) ∧
        (∀ j, (∀ pi ∈ infos, j < pi.out_offset) → final.getD j 0 = out.getD j 0) ∧
        (∀ pi ∈ infos, ∀ k, k < pi.part_size →
          final.getD (pi.out_offset + k) 0 = src.getD (pi.in_offset + k) 0) := by
  intro infos
  induction infos with
  | nil =>
    intro out hbound hpw
    refine ⟨out, rfl, ?_, fun j _ => rfl, fun pi hpi => absurd hpi (by simp)⟩
    simp [max_end]
  | cons pi rest ih =>
    intro out hbound hpw
    have hin : pi.in_offset + pi.part_size ≤ src.length := hbound pi (by simp)
    have hread := read_part_file_ok src pi.in_offset pi.part_size hin
    have hbytes_len : ((src.drop pi.in_offset).take pi.part_size).length = pi.part_size := by
      simp [List.length_take, List.length_drop]
      omega
    rcases List.pairwise_cons.mp hpw with ⟨hhead, htail⟩
    obtain ⟨final, heq, hlen, hbelow, hcontent⟩ :=
      ih (write_at out pi.out_offset ((src.drop pi.in_offset).take pi.part_size))
        (fun x hx => hbound x (by simp [hx])) htail
    refine ⟨final, ?_, ?_, ?_, ?_⟩
    · simp only [write_loop, hread]
      exact heq
    · rw [hlen, write_at_length, hbytes_len]
      simp only [max_end, List.foldr_cons]
      omega
    · intro j hj
      rw [hbelow j (fun x hx => hj x (by simp [hx]))]
      exact write_at_getD_lt out _ _ j (hj pi (by simp))
    · intro x hx k hk
      rcases List.mem_cons.mp hx with rfl | hx
      · have hjlt : ∀ y ∈ rest, x.out_offset + k < y.out_offset := by
          intro y hy
          have := hhead y hy
          omega
        rw [hbelow (x.out_offset + k) hjlt]
        rw [write_at_getD_at out x.out_offset _ k (by rw [hbytes_len]; exact hk)]
        exact getD_take_drop src x.in_offset x.part_size k hk
      · exact hcontent x hx k hk

/-- C5: round trip. For every nonempty list of `(dest_offset, size, payload)`
triples within the format limits (at most 80 parts, sizes in
`(0, MAX_PART_SIZE]`, payloads of exactly `size` bytes, encodable offsets)
whose destination ranges do not overlap, reconstructing the serialized file
built from them writes payload byte `k` of every part to output byte
`dest_offset + k`, and the output length is the highest
`dest_offset + size`. -/
theorem round_trip (ps : List (Nat × Nat × List Nat)) (hne : ps ≠ [])
    (hcount : ps.length ≤ MAX_PARTS_COUNT) (hv : valid_triples ps)
    (hdisj : disjoint_triples ps) :
    ∃ out, write_to_deserialized_file (build_file ps) = some out ∧
      (∀ t ∈ ps, ∀ k, k < t.2.1 → out.getD (t.1 + k) 0 = t.2.2.getD k 0) ∧
      out.length = max_end_triples ps := by
  have hparse := get_info_raw_build ps hv hne hcount
  have hget : get_info (build_file ps) =
      some (some (sort_by_key (part_infos_from 4 ps))) := by
    rw [get_info, hparse]
    rfl
  have hperm : List.Perm (sort_by_key (part_infos_from 4 ps)) (part_infos_from 4 ps) :=
    sort_by_key_perm _
  have hmem_raw : ∀ pi ∈ part_infos_from 4 ps, ∃ t ∈ ps,
      pi.out_offset = t.1 ∧ pi.part_size = t.2.1 ∧ 4 + 8 ≤ pi.in_offset ∧
      pi.in_offset + t.2.1 ≤ 4 + (encode_parts ps).length :=
    fun pi hpi => mem_part_infos_from pi ps 4 hv hpi
  have hbound : ∀ pi ∈ sort_by_key (part_infos_from 4 ps),
      pi.in_offset + pi.part_size ≤ (build_file ps).length := by
    intro pi hpi
    obtain ⟨t, ht, h1, h2, h3, h4⟩ := hmem_raw pi (hperm.mem_iff.mp hpi)
    rw [build_file_length ps]
    omega
  have hsizes : ∀ pi ∈ sort_by_key (part_infos_from 4 ps), 0 < pi.part_size := by
    intro pi hpi
    obtain ⟨t, ht, h1, h2, _, _⟩ := hmem_raw pi (hperm.mem_iff.mp hpi)
    obtain ⟨hs0, _, _, _⟩ := hv t ht
    omega
  have hdisj_raw : (part_infos_from 4 ps).Pairwise
      (fun a b => a.out_offset + a.part_size ≤ b.out_offset ∨
        b.out_offset + b.part_size ≤ a.out_offset) :=
    part_infos_from_pairwise ps 4 hv hdisj
  have hdisj_sorted : (sort_by_key (part_infos_from 4 ps)).Pairwise
      (fun a b => a.out_offset + a.part_size ≤ b.out_offset ∨
        b.out_offset + b.part_size ≤ a.out_offset) :=
    (hperm.pairwise_iff (fun hxy => hxy.elim Or.inr Or.inl)).mpr hdisj_raw
  have hle_sorted : (sort_by_key (part_infos_from 4 ps)).Pairwise key_le :=
    sort_by_key_pairwise _
  have hends : (sort_by_key (part_infos_from 4 ps)).Pairwise
      (fun a b => a.out_offset + a.part_size ≤ b.out_offset) := by
    refine List.Pairwise.imp_of_mem ?_ (hdisj_sorted.and hle_sorted)
    intro a b ha hb hr
    have hb0 : 0 < b.part_size := hsizes b hb
    rcases hr with ⟨hd | hd, hle⟩
    · exact hd
    · exact absurd hle (by rw [key_le]; omega)
  obtain ⟨final, heq, hlen, hbelow, hcontent⟩ :=
    write_loop_spec (build_file ps) (sort_by_key (part_infos_from 4 ps)) [] hbound hends
  refine ⟨final, ?_, ?_, ?_⟩
  · simp only [write_to_deserialized_file, hget]
    exact heq
  · intro t ht k hk
    obtain ⟨pi, hpi_raw, h1, h2, h3⟩ := part_infos_payload (build_file ps) ps
      (le32 ps.length) [] hv (by simp [build_file]) t ht
    rw [le32_length] at hpi_raw
    have hmem_sorted : pi ∈ sort_by_key (part_infos_from 4 ps) := hperm.mem_iff.mpr hpi_raw
    have hc := hcontent pi hmem_sorted k (by rw [h2]; exact hk)
    rw [h1] at hc
    rw [hc, h3 k hk]
  · rw [hlen, max_end_perm hperm, max_end_part_infos_from ps 4]
    simp

/-- C5 witness: the round trip evaluated on the concrete disjoint triples
`(2, 1, [9])` and `(0, 1, [7])`. -/
theorem round_trip_witness :
    (([(2, 1, [9]), (0, 1, [7])] : List (Nat × Nat × List Nat)) ≠ [] ∧
        ([(2, 1, [9]), (0, 1, [7])] : List (Nat × Nat × List Nat)).length ≤ MAX_PARTS_COUNT ∧
        valid_triples [(2, 1, [9]), (0, 1, [7])] ∧
        disjoint_triples [(2, 1, [9]), (0, 1, [7])]) ∧
      (∃ out, write_to_deserialized_file (build_file [(2, 1, [9]), (0, 1, [7])]) = some out ∧
        (∀ t ∈ ([(2, 1, [9]), (0, 1, [7])] : List (Nat × Nat × List Nat)),
          ∀ k, k < t.2.1 → out.getD (t.1 + k) 0 = t.2.2.getD k 0) ∧
        out.length = max_end_triples [(2, 1, [9]), (0, 1, [7])]) :=
  ⟨⟨by decide, by decide, by decide, by decide⟩,
    round_trip [(2, 1, [9]), (0, 1, [7])] (by decide) (by decide) (by decide) (by decide)⟩

end TMD
